import Mathlib

/-!
Verification of the file batch-renaming tool (src/main.py, class RenbanSuper)
against its natural-language specification.

The model is a shallow embedding:
* a flat directory is a list of file names (List String); the collision-safe
  renamer and every run_* strategy are state-passing functions on it;
* the directory tree walked by the file selector is an inductive tree;
* the external AI and metadata capabilities are oracles passed as arguments
  (an Option response models a call that may raise, mirroring try/except);
* Python's unbounded while-loop in _rename_file is given explicit fuel
  (length of the directory listing plus one) and returns Option, so a run
  that would search longer than the fuel is modelled as none.

All definitions are computable and concrete runs evaluate by rfl/decide.
-/

namespace Renban

/-- Characters Python's _sanitize_filename replaces (the regex class). -/
def invalidChars : List Char := ['\\', '/', ':', '*', '?', '\"', '<', '>', '|']

/-- Per-character replacement performed by re.sub in _sanitize_filename. -/
def replChar (c : Char) : Char := if c ∈ invalidChars then '_' else c

/-- RenbanSuper._sanitize_filename: replace each invalid character by an
underscore, then re-prepend a leading dot if the replacement lost it. -/
def sanitize (name : String) : String :=
  let s := String.mk (name.data.map replChar)
  if name.data.head? = some '.' ∧ ¬ s.data.head? = some '.' then
    String.mk ('.' :: s.data)
  else s

theorem sanitize_data (name : String) :
    (sanitize name).data = name.data.map replChar := by
  have hc : ¬ (name.data.head? = some '.' ∧
      ¬ (String.mk (name.data.map replChar)).data.head? = some '.') := by
    rintro ⟨h1, h2⟩
    apply h2
    cases hd : name.data with
    | nil => rw [hd] at h1; simp at h1
    | cons c cs =>
      rw [hd] at h1
      simp at h1
      subst h1
      simp [replChar, invalidChars]
  show (if name.data.head? = some '.' ∧
      ¬ (String.mk (name.data.map replChar)).data.head? = some '.' then
        String.mk ('.' :: (String.mk (name.data.map replChar)).data)
      else String.mk (name.data.map replChar)).data = name.data.map replChar
  rw [if_neg hc]

/-- Decimal digits of a natural number, most significant first, written with
explicit fuel so that it is structurally recursive (mirrors Python str(n) for
nonnegative n). -/
def natToDigits (fuel n : Nat) (acc : List Char) : List Char :=
  match fuel with
  | 0 => acc
  | fuel + 1 =>
    let d := Char.ofNat (48 + n % 10)
    if n < 10 then d :: acc else natToDigits fuel (n / 10) (d :: acc)

/-- Decimal rendering of a natural number as a character list. -/
def natRepr (n : Nat) : List Char := natToDigits (n + 1) n []

/-- Decimal rendering of a natural number as a string. -/
def natReprS (n : Nat) : String := String.mk (natRepr n)

/-- Python f-string formatting with 0-padding to the configured width,
as in f-string 0 digits d used by run_simple and run_ai_sort. -/
def zeroPad (digits n : Nat) : String :=
  String.mk (List.replicate (digits - (natRepr n).length) '0' ++ natRepr n)

/-- The part of a path after the last slash (the final component, as in
pathlib's Path.name for the paths this tool builds). -/
def afterLastSlash (l : List Char) : List Char :=
  l.foldl (fun acc c => if c = '/' then [] else acc ++ [c]) []

/-- Index of the last dot in a character list, if any (Python str.rfind). -/
def rfindDotIdx : List Char → Option Nat
  | [] => none
  | c :: rest =>
    match rfindDotIdx rest with
    | some i => some (i + 1)
    | none => if c = '.' then some 0 else none

/-- pathlib Path.suffix: the extension of the final component, including the
dot; empty when the name has no internal dot (hidden files and trailing dots
give the empty suffix). -/
def extOf (p : String) : String :=
  let nm := afterLastSlash p.data
  match rfindDotIdx nm with
  | some i => if 0 < i ∧ i + 1 < nm.length then String.mk (nm.drop i) else ""
  | none => ""

/-- pathlib Path.stem: the final component without its suffix. -/
def stemOf (p : String) : String :=
  let nm := afterLastSlash p.data
  match rfindDotIdx nm with
  | some i => if 0 < i ∧ i + 1 < nm.length then String.mk (nm.take i) else String.mk nm
  | none => String.mk nm

/-- Python str.lower restricted to ASCII, as used on extensions. -/
def lowerStr (s : String) : String := String.mk (s.data.map Char.toLower)

/-- Lexicographic comparison of strings by code point, Python's ordering on
the path strings this tool compares. -/
def lexLe : List Char → List Char → Bool
  | [], _ => true
  | _ :: _, [] => false
  | a :: as, b :: bs =>
    if a.toNat < b.toNat then true
    else if b.toNat < a.toNat then false
    else lexLe as bs

/-- Insert a string into a lexicographically sorted list. -/
def insertStr (x : String) : List String → List String
  | [] => [x]
  | y :: ys => if lexLe x.data y.data then x :: y :: ys else y :: insertStr x ys

/-- Insertion sort by path string, the model of Python's sorted(files). -/
def sortStrs : List String → List String
  | [] => []
  | x :: xs => insertStr x (sortStrs xs)

/-- RenbanSuper._get_files in the flat single-directory model: the directory
state is the list of file names; keep a name when no extension filter is
configured (None or empty, both falsy in Python) or its lowercased suffix is
in the filter, then sort. -/
def getFilesFlat (exts : List String) (fs : List String) : List String :=
  sortStrs (fs.filter (fun f => exts.isEmpty || exts.contains (lowerStr (extOf f))))

/-- Candidate target names tried by _rename_file: index 0 is the initial
candidate without a counter, index k+1 carries the _k+1 disambiguator placed
between the suffix and the extension; each candidate is re-sanitized. -/
def candName (pre base suf ext : String) : Nat → String
  | 0 => sanitize (pre ++ base ++ suf ++ ext)
  | k + 1 => sanitize (pre ++ base ++ suf ++ "_" ++ natReprS (k + 1) ++ ext)

/-- The while-loop of _rename_file: starting at candidate index k, keep
incrementing the counter while the candidate exists in the directory and is
not the file itself. Fuel bounds the search; the source loop is unbounded. -/
def findTarget (fs : List String) (old pre base suf ext : String) :
    Nat → Nat → Option String
  | 0, _ => none
  | fuel + 1, k =>
    let c := candName pre base suf ext k
    if c ∈ fs ∧ c ≠ old then findTarget fs old pre base suf ext fuel (k + 1)
    else some c

/-- Result record for one file processed by _rename_file: the reported
(old name, target name) pair, whether the rename was performed, and whether
the OS-level rename raised (caught by the per-file try/except). -/
structure Outcome where
  oldName : String
  target : String
  renamed : Bool
  failed : Bool
deriving DecidableEq

/-- The name a file actually carries after its outcome: its target when the
rename was performed, otherwise its original name. -/
def finalName (o : Outcome) : String := if o.renamed then o.target else o.oldName

/-- Effect of os.rename old -> new on the directory listing. -/
def applyRename (fs : List String) (old new : String) : List String :=
  if new = old then fs else new :: fs.erase old

/-- RenbanSuper._rename_file: build the sanitized candidate, search for a
non-colliding target, report, and (unless dry_run) attempt the rename; the
oracle ok models whether os.rename succeeds or raises OSError. -/
def renameFile (dry : Bool) (ok : String → String → Bool) (pre suf : String)
    (fs : List String) (old base ext : String) : Option (List String × Outcome) :=
  match findTarget fs old pre base suf ext (fs.length + 1) 0 with
  | none => none
  | some tgt =>
    if dry then some (fs, ⟨old, tgt, false, false⟩)
    else if ok old tgt then some (applyRename fs old tgt, ⟨old, tgt, true, false⟩)
    else some (fs, ⟨old, tgt, false, true⟩)

/-- One strategy pass: fold _rename_file over the precomputed list of
(old name, base name, extension) triples, threading the live directory. -/
def runBatch (dry : Bool) (ok : String → String → Bool) (pre suf : String) :
    List String → List (String × String × String) → Option (List String × List Outcome)
  | fs, [] => some (fs, [])
  | fs, (old, base, ext) :: rest =>
    match renameFile dry ok pre suf fs old base ext with
    | none => none
    | some (fs1, o) =>
      match runBatch dry ok pre suf fs1 rest with
      | none => none
      | some (fs2, os) => some (fs2, o :: os)

/-- Source names of a triple list. -/
def fstNames (ts : List (String × String × String)) : List String :=
  ts.map (fun t => t.1)

/-- The enumerate loop of run_simple and run_ai_sort: the i-th file of the
list is paired with the zero-padded counter start + i and its own suffix. -/
def seqTriples (start digits : Nat) : List String → List (String × String × String)
  | [] => []
  | f :: rest => (f, zeroPad digits start, extOf f) :: seqTriples (start + 1) digits rest

/-- RenbanSuper.run_simple over the flat directory model. -/
def runSimple (dry : Bool) (ok : String → String → Bool) (pre suf : String)
    (exts : List String) (start digits : Nat) (fs : List String) :
    Option (List String × List Outcome) :=
  runBatch dry ok pre suf fs (seqTriples start digits (getFilesFlat exts fs))

/-- An os.rename oracle that always succeeds. -/
def okAlways : String → String → Bool := fun _ _ => true

/-- ASCII whitespace stripped by Python str.strip. -/
def isStripWS (c : Char) : Bool := c = ' ' || c = '\t' || c = '\n' || c = '\r'

/-- Python str.strip on a character list. -/
def trimChars (l : List Char) : List Char :=
  ((l.dropWhile isStripWS).reverse.dropWhile isStripWS).reverse

/-- Python str.split on the comma character (never returns an empty list:
splitting the empty string yields one empty field). -/
def splitCommaAux : List Char → List Char → List (List Char)
  | [], acc => [acc.reverse]
  | c :: rest, acc =>
    if c = ',' then acc.reverse :: splitCommaAux rest []
    else splitCommaAux rest (c :: acc)

/-- Digit accumulator for Python int(). -/
def parseDigitsAux : List Char → Nat → Option Nat
  | [], acc => some acc
  | c :: rest, acc =>
    if c.isDigit then parseDigitsAux rest (acc * 10 + (c.toNat - 48)) else none

/-- Nonempty all-digit parse; the empty string is a ValueError. -/
def parseDigits : List Char → Option Nat
  | [] => none
  | l => parseDigitsAux l 0

/-- Python int() on a stripped field, with an optional sign. -/
def parseIntChars (l : List Char) : Option Int :=
  match trimChars l with
  | '-' :: rest => (parseDigits rest).map (fun n => -(n : Int))
  | '+' :: rest => (parseDigits rest).map (fun n => (n : Int))
  | rest => (parseDigits rest).map (fun n => (n : Int))

/-- Collect a list of options, failing if any entry is none. -/
def allSome : List (Option α) → Option (List α)
  | [] => some []
  | o :: rest =>
    match o, allSome rest with
    | some x, some xs => some (x :: xs)
    | _, _ => none

/-- The index-list parser of sort_files_by_ai: strip the response, split on
commas, strip each field and convert with int(); any field failing raises
ValueError, modelled as none. -/
def parseIndices (s : String) : Option (List Int) :=
  allSome ((splitCommaAux (trimChars s.data) []).map parseIntChars)

/-- Python list indexing files[i]: negative indices count from the end, out
of range raises IndexError (none). -/
def pyGet (l : List α) (i : Int) : Option α :=
  if 0 ≤ i then l.get? i.toNat
  else if 0 ≤ i + l.length then l.get? (i + l.length).toNat
  else none

/-- RenbanSuper.sort_files_by_ai. The first flag is whether ai_model is set;
resp is the text of generate_content, none when the call raised. The only
validation applied to a parsed index list is the length comparison; building
the reordered list can still raise IndexError (caught, falling back), and
every failure path returns the input list unchanged. -/
def sortFilesByAi (aiAvail : Bool) (resp : Option String) (files : List String) :
    List String :=
  if !aiAvail then files
  else
    match resp with
    | none => files
    | some r =>
      match parseIndices r with
      | none => files
      | some idxs =>
        if idxs.length = files.length then
          match allSome (idxs.map (pyGet files)) with
          | some l => l
          | none => files
        else files

/-- RenbanSuper.run_ai_sort over the flat directory model: reorder the
selection with sort_files_by_ai, then number sequentially like run_simple. -/
def runAiSort (aiAvail : Bool) (resp : Option String) (dry : Bool)
    (ok : String → String → Bool) (pre suf : String) (exts : List String)
    (start digits : Nat) (fs : List String) : Option (List String × List Outcome) :=
  runBatch dry ok pre suf fs
    (seqTriples start digits (sortFilesByAi aiAvail resp (getFilesFlat exts fs)))

/-- External metadata capability: per path, the docx core author (None for an
absent or falsy field) or an exception, and the image EXIF state: none for a
falsy _getexif result, some none for a dictionary without tag 315, and
some (some v) for a present artist tag; Except.error models a raised
exception. -/
structure MetaOracle where
  docxAuthor : String → Except Unit (Option String)
  imageExif : String → Except Unit (Option (Option String))

/-- RenbanSuper.get_file_author: dispatch on the lowercased suffix; the
try/except converts any raised exception to AuthorNotAvailable, a falsy EXIF
result falls through to the trailing AuthorNotSupported return. -/
def getFileAuthor (m : MetaOracle) (p : String) : String :=
  let ext := lowerStr (extOf p)
  if ext = ".docx" then
    match m.docxAuthor p with
    | Except.error _ => "AuthorNotAvailable"
    | Except.ok none => "UnknownAuthor"
    | Except.ok (some s) => if s = "" then "UnknownAuthor" else s
  else if ext = ".jpg" ∨ ext = ".jpeg" ∨ ext = ".tiff" then
    match m.imageExif p with
    | Except.error _ => "AuthorNotAvailable"
    | Except.ok none => "AuthorNotSupported"
    | Except.ok (some none) => "UnknownArtist"
    | Except.ok (some (some v)) => v
  else "AuthorNotSupported"

/-- RenbanSuper.run_author over the flat directory model: base name is
author underscore stem for every selected file. -/
def runAuthor (m : MetaOracle) (dry : Bool) (ok : String → String → Bool)
    (pre suf : String) (exts : List String) (fs : List String) :
    Option (List String × List Outcome) :=
  runBatch dry ok pre suf fs
    ((getFilesFlat exts fs).map (fun f => (f, getFileAuthor m f ++ "_" ++ stemOf f, extOf f)))

/-- Directory tree walked by the file selector: regular files and
subdirectories with their children. -/
inductive FSTree where
  | file (nm : String)
  | dir (nm : String) (children : List FSTree)

/-- One entry of Path.glob star: the full path of an immediate child and
whether it is a regular file. -/
def childEntry (base : String) : FSTree → String × Bool
  | FSTree.file n => (base ++ "/" ++ n, true)
  | FSTree.dir n _ => (base ++ "/" ++ n, false)

mutual

/-- All entries below one tree node, the node itself included (Path.rglob). -/
def deepEntries (base : String) : FSTree → List (String × Bool)
  | FSTree.file n => [(base ++ "/" ++ n, true)]
  | FSTree.dir n cs => (base ++ "/" ++ n, false) :: deepEntriesList (base ++ "/" ++ n) cs

/-- All entries below a list of sibling tree nodes. -/
def deepEntriesList (base : String) : List FSTree → List (String × Bool)
  | [] => []
  | t :: ts => deepEntries base t ++ deepEntriesList base ts

end

/-- The iterator of _get_files: rglob over the root's children when
recursive, glob (immediate children) otherwise. -/
def selectorEntries (base : String) (cs : List FSTree) (recursive : Bool) :
    List (String × Bool) :=
  if recursive then deepEntriesList base cs else cs.map (childEntry base)

/-- The filter of _get_files: keep regular files passing the (possibly
falsy, hence absent) extension filter. -/
def keepEntry (exts : List String) (e : String × Bool) : Bool :=
  e.2 && (exts.isEmpty || exts.contains (lowerStr (extOf e.1)))

/-- Strict lexicographic comparison of character lists by code point, the
comparison Python applies to the strings inside a path's parts tuple. -/
def charsLt : List Char → List Char → Bool
  | _, [] => false
  | [], _ :: _ => true
  | a :: as, b :: bs =>
    if a.toNat < b.toNat then true
    else if b.toNat < a.toNat then false
    else charsLt as bs

/-- Lexicographic order on tuples of path components: pathlib compares two
Path objects by their parts tuple, component by component, a strict prefix
sorting first. -/
def partsLe : List (List Char) → List (List Char) → Bool
  | [], _ => true
  | _ :: _, [] => false
  | a :: as, b :: bs =>
    if charsLt a b then true
    else if charsLt b a then false
    else partsLe as bs

/-- Split a relative path into its slash-separated components (the parts
tuple of the paths this model builds, which have no repeated slashes). -/
def splitSlashAux : List Char → List Char → List (List Char)
  | [], acc => [acc.reverse]
  | c :: rest, acc =>
    if c = '/' then acc.reverse :: splitSlashAux rest []
    else splitSlashAux rest (c :: acc)

/-- The parts tuple of a path string. -/
def splitSlash (l : List Char) : List (List Char) := splitSlashAux l []

/-- pathlib's ordering on Path objects: compare the parts tuples. -/
def pathLeB (a b : String) : Bool := partsLe (splitSlash a.data) (splitSlash b.data)

/-- The pathlib path ordering as a relation on path strings. -/
def pathLe (a b : String) : Prop := pathLeB a b = true

/-- Insert a path into a list sorted by the pathlib ordering. -/
def insertPath (x : String) : List String → List String
  | [] => [x]
  | y :: ys => if pathLeB x y then x :: y :: ys else y :: insertPath x ys

/-- Insertion sort by the pathlib ordering, the model of Python's
sorted(files) on a list of Path objects. -/
def sortPaths : List String → List String
  | [] => []
  | x :: xs => insertPath x (sortPaths xs)

/-- RenbanSuper._get_files over the tree model: iterate, filter, sort the
Path objects; sorted(files) compares Paths by their parts tuple. -/
def getFilesTree (base : String) (cs : List FSTree) (recursive : Bool)
    (exts : List String) : List String :=
  sortPaths (((selectorEntries base cs recursive).filter (keepEntry exts)).map
    (fun e => e.1))

theorem findTarget_spec (fs : List String) (old pre base suf ext : String) :
    ∀ fuel k t, findTarget fs old pre base suf ext fuel k = some t →
      ∃ m, k ≤ m ∧ t = candName pre base suf ext m ∧
        (t ∉ fs ∨ t = old) ∧
        (∀ j, k ≤ j → j < m →
          candName pre base suf ext j ∈ fs ∧ candName pre base suf ext j ≠ old) := by
  intro fuel
  induction fuel with
  | zero => intro k t h; simp [findTarget] at h
  | succ fuel ih =>
    intro k t h
    simp only [findTarget] at h
    split at h
    · obtain ⟨m, hkm, ht, hnm, hall⟩ := ih (k + 1) t h
      refine ⟨m, by omega, ht, hnm, ?_⟩
      intro j hkj hjm
      rcases Nat.eq_or_lt_of_le hkj with heq | hlt
      · subst heq
        assumption
      · exact hall j hlt hjm
    · rename_i hc
      obtain rfl : candName pre base suf ext k = t := by
        injection h
      refine ⟨k, Nat.le_refl k, rfl, ?_, ?_⟩
      · rcases Decidable.not_and_iff_or_not.mp hc with h1 | h2
        · exact Or.inl h1
        · exact Or.inr (Decidable.not_not.mp h2)
      · intro j hkj hjk
        omega

theorem findTarget_free (fs : List String) (old pre base suf ext : String)
    (fuel k : Nat) (t : String)
    (h : findTarget fs old pre base suf ext fuel k = some t) :
    t ∉ fs ∨ t = old := by
  obtain ⟨m, _, _, hnm, _⟩ := findTarget_spec fs old pre base suf ext fuel k t h
  exact hnm

theorem renameFile_spec (dry : Bool) (ok : String → String → Bool)
    (pre suf : String) (fs : List String) (old base ext : String)
    (fs1 : List String) (o : Outcome)
    (h : renameFile dry ok pre suf fs old base ext = some (fs1, o)) :
    o.oldName = old ∧
    ∃ m, o.target = candName pre base suf ext m ∧
      (o.target ∉ fs ∨ o.target = old) ∧
      (∀ j, j < m →
        candName pre base suf ext j ∈ fs ∧ candName pre base suf ext j ≠ old) := by
  simp only [renameFile] at h
  split at h
  · exact absurd h (by simp)
  · rename_i tgt hft
    obtain ⟨m, _, ht, hnm, hall⟩ :=
      findTarget_spec fs old pre base suf ext (fs.length + 1) 0 tgt hft
    have hto : o.target = tgt ∧ o.oldName = old := by
      split at h
      · obtain ⟨h1, h2⟩ := Prod.mk.injEq .. ▸ (Option.some.injEq .. ▸ h)
        subst h2; exact ⟨rfl, rfl⟩
      · split at h
        · obtain ⟨h1, h2⟩ := Prod.mk.injEq .. ▸ (Option.some.injEq .. ▸ h)
          subst h2; exact ⟨rfl, rfl⟩
        · obtain ⟨h1, h2⟩ := Prod.mk.injEq .. ▸ (Option.some.injEq .. ▸ h)
          subst h2; exact ⟨rfl, rfl⟩
    refine ⟨hto.2, m, hto.1 ▸ ht, hto.1 ▸ hnm, ?_⟩
    intro j hj
    exact hall j (Nat.zero_le j) hj

theorem renameFile_dry (ok : String → String → Bool)
    (pre suf : String) (fs : List String) (old base ext : String)
    (fs1 : List String) (o : Outcome)
    (h : renameFile true ok pre suf fs old base ext = some (fs1, o)) :
    fs1 = fs ∧ o.oldName = old ∧ o.renamed = false ∧ o.failed = false := by
  simp only [renameFile] at h
  split at h
  · exact absurd h (by simp)
  · rw [if_pos trivial] at h
    obtain ⟨h1, h2⟩ := Prod.mk.injEq .. ▸ (Option.some.injEq .. ▸ h)
    subst h2
    exact ⟨h1.symm, rfl, rfl, rfl⟩

theorem renameFile_apply_step (ok : String → String → Bool) (pre suf : String)
    (fs : List String) (old base ext : String) (fs1 : List String) (o : Outcome)
    (h : renameFile false ok pre suf fs old base ext = some (fs1, o))
    (hold : old ∈ fs) (hnd : fs.Nodup) :
    fs1.Nodup ∧ (∀ x ∈ fs, x ≠ old → x ∈ fs1) ∧ o.oldName = old ∧
      finalName o ∈ fs1 ∧ (finalName o ∉ fs ∨ finalName o = old) ∧
      (∀ x ∈ fs1, x ∈ fs ∨ x = finalName o) := by
  simp only [renameFile] at h
  split at h
  · exact absurd h (by simp)
  · rename_i tgt hft
    have hfree := findTarget_free fs old pre base suf ext (fs.length + 1) 0 tgt hft
    rw [if_neg Bool.false_ne_true] at h
    split at h
    · rename_i hok
      obtain ⟨h1, h2⟩ := Prod.mk.injEq .. ▸ (Option.some.injEq .. ▸ h)
      subst h2
      have hfin : finalName ⟨old, tgt, true, false⟩ = tgt := rfl
      rw [hfin]
      by_cases htgt : tgt = old
      · have hfs1 : fs1 = fs := by rw [← h1, applyRename, if_pos htgt]
        subst hfs1
        exact ⟨hnd, fun x hx _ => hx, rfl, htgt ▸ hold, Or.inr htgt,
          fun x hx => Or.inl hx⟩
      · have htm : tgt ∉ fs := hfree.resolve_right htgt
        have hfs1 : fs1 = tgt :: fs.erase old := by
          rw [← h1, applyRename, if_neg htgt]
        subst hfs1
        refine ⟨?_, ?_, rfl, List.mem_cons_self tgt _, Or.inl htm, ?_⟩
        · exact List.nodup_cons.mpr
            ⟨fun hc => htm (List.erase_subset old fs hc), hnd.erase old⟩
        · intro x hx hxo
          exact List.mem_cons_of_mem tgt ((List.mem_erase_of_ne hxo).mpr hx)
        · intro x hx
          rcases List.mem_cons.mp hx with h | h
          · exact Or.inr h
          · exact Or.inl (List.erase_subset old fs h)
    · obtain ⟨h1, h2⟩ := Prod.mk.injEq .. ▸ (Option.some.injEq .. ▸ h)
      subst h2
      have hfin : finalName ⟨old, tgt, false, true⟩ = old := rfl
      rw [hfin, ← h1]
      exact ⟨hnd, fun x hx _ => hx, rfl, hold, Or.inr rfl, fun x hx => Or.inl hx⟩

theorem fstNames_mem_of (ts : List (String × String × String)) (x : String)
    (h : x ∈ fstNames ts) : ∃ t ∈ ts, t.1 = x := by
  simpa [fstNames] using h

theorem runBatch_master (ok : String → String → Bool) (pre suf : String) :
    ∀ (ts : List (String × String × String)) (fs fs2 : List String)
      (os : List Outcome),
      runBatch false ok pre suf fs ts = some (fs2, os) →
      fs.Nodup → (∀ t ∈ ts, t.1 ∈ fs) → (fstNames ts).Nodup →
      fs2.Nodup ∧
      (∀ x ∈ fs, x ∉ fstNames ts → x ∈ fs2) ∧
      (os.map finalName).Nodup ∧
      (∀ o ∈ os, finalName o ∈ fs2) ∧
      (∀ o ∈ os, finalName o ∉ fs ∨ finalName o ∈ fstNames ts) ∧
      os.map (fun o => o.oldName) = fstNames ts := by
  intro ts
  induction ts with
  | nil =>
    intro fs fs2 os h hnd _ _
    simp only [runBatch] at h
    obtain ⟨h1, h2⟩ := Prod.mk.injEq .. ▸ (Option.some.injEq .. ▸ h)
    subst h2
    subst h1
    exact ⟨hnd, fun x hx _ => hx, by simp, by simp, by simp, by simp [fstNames]⟩
  | cons t rest ih =>
    obtain ⟨old, base, ext⟩ := t
    intro fs fs2 os h hnd hsrc hsnd
    simp only [runBatch] at h
    cases h1 : renameFile false ok pre suf fs old base ext with
    | none => rw [h1] at h; exact absurd h (by simp)
    | some p =>
      obtain ⟨fs1, o⟩ := p
      rw [h1] at h
      simp only at h
      cases h2 : runBatch false ok pre suf fs1 rest with
      | none => rw [h2] at h; exact absurd h (by simp)
      | some q =>
        obtain ⟨fsr, osr⟩ := q
        rw [h2] at h
        simp only at h
        obtain ⟨he1, he2⟩ := Prod.mk.injEq .. ▸ (Option.some.injEq .. ▸ h)
        subst he1
        subst he2
        have hold : old ∈ fs := hsrc _ (List.mem_cons_self _ _)
        obtain ⟨s1, s2, s3, s4, s5, s6⟩ :=
          renameFile_apply_step ok pre suf fs old base ext fs1 o h1 hold hnd
        have hsndc : old ∉ fstNames rest ∧ (fstNames rest).Nodup := by
          have : (old :: fstNames rest).Nodup := by simpa [fstNames] using hsnd
          exact ⟨(List.nodup_cons.mp this).1, (List.nodup_cons.mp this).2⟩
        have hsub : ∀ x ∈ fstNames rest, x ∈ fs := by
          intro x hx
          obtain ⟨t, htr, rfl⟩ := fstNames_mem_of rest x hx
          exact hsrc t (List.mem_cons_of_mem _ htr)
        have hsrc1 : ∀ t ∈ rest, t.1 ∈ fs1 := by
          intro t htr
          have hne : t.1 ≠ old := by
            intro hq
            exact hsndc.1 (hq ▸ (by simpa [fstNames] using List.mem_map_of_mem (fun t => t.1) htr))
          exact s2 t.1 (hsrc t (List.mem_cons_of_mem _ htr)) hne
        obtain ⟨i1, i2, i3, i4, i5, i6⟩ := ih fs1 fsr osr h2 s1 hsrc1 hsndc.2
        have hfo_notrest : finalName o ∉ fstNames rest := by
          rcases s5 with hnf | heq
          · exact fun hc => hnf (hsub _ hc)
          · exact fun hc => hsndc.1 (heq ▸ hc)
        refine ⟨i1, ?_, ?_, ?_, ?_, ?_⟩
        · intro x hx hnx
          have hxo : x ≠ old := by
            intro hq
            exact hnx (by simp [fstNames, hq])
          have hxr : x ∉ fstNames rest := by
            intro hc
            exact hnx (by simp [fstNames] at hc ⊢; exact Or.inr hc)
          exact i2 x (s2 x hx hxo) hxr
        · rw [List.map_cons]
          refine List.nodup_cons.mpr ⟨?_, i3⟩
          intro hc
          obtain ⟨o1, ho1, heq⟩ := List.mem_map.mp hc
          rcases i5 o1 ho1 with hnf | hin
          · exact hnf (heq ▸ s4)
          · rcases s5 with hnf2 | heq2
            · exact hnf2 (hsub _ (heq ▸ hin))
            · exact hsndc.1 (heq2 ▸ heq ▸ hin)
        · intro o1 ho1
          rcases List.mem_cons.mp ho1 with rfl | htl
          · exact i2 (finalName o1) s4 hfo_notrest
          · exact i4 o1 htl
        · intro o1 ho1
          rcases List.mem_cons.mp ho1 with rfl | htl
          · rcases s5 with hnf | heq
            · exact Or.inl hnf
            · exact Or.inr (by simp [fstNames, heq])
          · rcases i5 o1 htl with hnf | hin
            · by_cases hfs : finalName o1 ∈ fs
              · by_cases hfo : finalName o1 = old
                · exact Or.inr (by simp [fstNames, hfo])
                · exact absurd (s2 _ hfs hfo) hnf
              · exact Or.inl hfs
            · exact Or.inr (by simp [fstNames] at hin ⊢; exact Or.inr hin)
        · rw [List.map_cons, s3]
          have : fstNames ((old, base, ext) :: rest) = old :: fstNames rest := by
            simp [fstNames]
          rw [this, i6]

theorem runBatch_dry (ok : String → String → Bool) (pre suf : String) :
    ∀ (ts : List (String × String × String)) (fs fs2 : List String)
      (os : List Outcome),
      runBatch true ok pre suf fs ts = some (fs2, os) →
      fs2 = fs ∧ os.map (fun o => o.oldName) = fstNames ts ∧
        ∀ o ∈ os, o.renamed = false ∧ o.failed = false := by
  intro ts
  induction ts with
  | nil =>
    intro fs fs2 os h
    simp only [runBatch] at h
    obtain ⟨h1, h2⟩ := Prod.mk.injEq .. ▸ (Option.some.injEq .. ▸ h)
    subst h2
    subst h1
    exact ⟨rfl, by simp [fstNames], by simp⟩
  | cons t rest ih =>
    obtain ⟨old, base, ext⟩ := t
    intro fs fs2 os h
    simp only [runBatch] at h
    cases h1 : renameFile true ok pre suf fs old base ext with
    | none => rw [h1] at h; exact absurd h (by simp)
    | some p =>
      obtain ⟨fs1, o⟩ := p
      rw [h1] at h
      simp only at h
      cases h2 : runBatch true ok pre suf fs1 rest with
      | none => rw [h2] at h; exact absurd h (by simp)
      | some q =>
        obtain ⟨fsr, osr⟩ := q
        rw [h2] at h
        simp only at h
        obtain ⟨he1, he2⟩ := Prod.mk.injEq .. ▸ (Option.some.injEq .. ▸ h)
        subst he1
        subst he2
        obtain ⟨d1, d2, d3, d4⟩ := renameFile_dry ok pre suf fs old base ext fs1 o h1
        subst d1
        obtain ⟨j1, j2, j3⟩ := ih fs1 fsr osr h2
        refine ⟨j1, ?_, ?_⟩
        · simp [fstNames] at j2 ⊢
          exact ⟨d2, j2⟩
        · intro o1 ho1
          rcases List.mem_cons.mp ho1 with rfl | htl
          · exact ⟨d3, d4⟩
          · exact j3 o1 htl

theorem runBatch_spec (dry : Bool) (ok : String → String → Bool) (pre suf : String) :
    ∀ (ts : List (String × String × String)) (fs fs2 : List String)
      (os : List Outcome),
      runBatch dry ok pre suf fs ts = some (fs2, os) →
      os.length = ts.length ∧
      ∀ i (hi : i < os.length) (hj : i < ts.length),
        (os.get ⟨i, hi⟩).oldName = (ts.get ⟨i, hj⟩).1 ∧
        ∃ m, (os.get ⟨i, hi⟩).target =
          candName pre (ts.get ⟨i, hj⟩).2.1 suf (ts.get ⟨i, hj⟩).2.2 m := by
  intro ts
  induction ts with
  | nil =>
    intro fs fs2 os h
    simp only [runBatch] at h
    obtain ⟨h1, h2⟩ := Prod.mk.injEq .. ▸ (Option.some.injEq .. ▸ h)
    subst h2
    exact ⟨rfl, by intro i hi hj; exact absurd hj (by simp)⟩
  | cons t rest ih =>
    obtain ⟨old, base, ext⟩ := t
    intro fs fs2 os h
    simp only [runBatch] at h
    cases h1 : renameFile dry ok pre suf fs old base ext with
    | none => rw [h1] at h; exact absurd h (by simp)
    | some p =>
      obtain ⟨fs1, o⟩ := p
      rw [h1] at h
      simp only at h
      cases h2 : runBatch dry ok pre suf fs1 rest with
      | none => rw [h2] at h; exact absurd h (by simp)
      | some q =>
        obtain ⟨fsr, osr⟩ := q
        rw [h2] at h
        simp only at h
        obtain ⟨he1, he2⟩ := Prod.mk.injEq .. ▸ (Option.some.injEq .. ▸ h)
        subst he1
        subst he2
        obtain ⟨hlen, hidx⟩ := ih fs1 fsr osr h2
        obtain ⟨hon, m, hm, _, _⟩ :=
          renameFile_spec dry ok pre suf fs old base ext fs1 o h1
        refine ⟨by simp [hlen], ?_⟩
        intro i hi hj
        cases i with
        | zero => exact ⟨hon, m, hm⟩
        | succ n =>
          exact hidx n (by simpa using hi) (by simpa using hj)

theorem renameFile_apply_flags (ok : String → String → Bool) (pre suf : String)
    (fs : List String) (old base ext : String) (fs1 : List String) (o : Outcome)
    (h : renameFile false ok pre suf fs old base ext = some (fs1, o)) :
    o.oldName = old ∧ o.renamed = ok o.oldName o.target ∧
      o.failed = !(ok o.oldName o.target) ∧ (o.failed = true → fs1 = fs) := by
  simp only [renameFile] at h
  split at h
  · exact absurd h (by simp)
  · rename_i tgt hft
    rw [if_neg Bool.false_ne_true] at h
    split at h
    · rename_i hok
      obtain ⟨h1, h2⟩ := Prod.mk.injEq .. ▸ (Option.some.injEq .. ▸ h)
      subst h2
      exact ⟨rfl, by simp [hok], by simp [hok], by intro hc; exact absurd hc (by simp)⟩
    · rename_i hok
      obtain ⟨h1, h2⟩ := Prod.mk.injEq .. ▸ (Option.some.injEq .. ▸ h)
      subst h2
      have hok2 : ok old tgt = false := by
        cases hq : ok old tgt
        · rfl
        · exact absurd hq hok
      exact ⟨rfl, by simp [hok2], by simp [hok2], fun _ => h1.symm⟩

theorem runBatch_flags (ok : String → String → Bool) (pre suf : String) :
    ∀ (ts : List (String × String × String)) (fs fs2 : List String)
      (os : List Outcome),
      runBatch false ok pre suf fs ts = some (fs2, os) →
      ∀ o ∈ os, o.renamed = ok o.oldName o.target ∧
        o.failed = !(ok o.oldName o.target) := by
  intro ts
  induction ts with
  | nil =>
    intro fs fs2 os h
    simp only [runBatch] at h
    obtain ⟨h1, h2⟩ := Prod.mk.injEq .. ▸ (Option.some.injEq .. ▸ h)
    subst h2
    simp
  | cons t rest ih =>
    obtain ⟨old, base, ext⟩ := t
    intro fs fs2 os h
    simp only [runBatch] at h
    cases h1 : renameFile false ok pre suf fs old base ext with
    | none => rw [h1] at h; exact absurd h (by simp)
    | some p =>
      obtain ⟨fs1, o⟩ := p
      rw [h1] at h
      simp only at h
      cases h2 : runBatch false ok pre suf fs1 rest with
      | none => rw [h2] at h; exact absurd h (by simp)
      | some q =>
        obtain ⟨fsr, osr⟩ := q
        rw [h2] at h
        simp only at h
        obtain ⟨he1, he2⟩ := Prod.mk.injEq .. ▸ (Option.some.injEq .. ▸ h)
        subst he1
        subst he2
        intro o1 ho1
        rcases List.mem_cons.mp ho1 with rfl | htl
        · obtain ⟨_, f2, f3, _⟩ :=
            renameFile_apply_flags ok pre suf fs old base ext fs1 o1 h1
          exact ⟨f2, f3⟩
        · exact ih fs1 fsr osr h2 o1 htl

theorem seqTriples_length (digits : Nat) :
    ∀ (l : List String) (start : Nat), (seqTriples start digits l).length = l.length := by
  intro l
  induction l with
  | nil => intro start; rfl
  | cons f rest ih => intro start; simp [seqTriples, ih]

theorem seqTriples_get (digits : Nat) :
    ∀ (l : List String) (start i : Nat) (h1 : i < (seqTriples start digits l).length)
      (h2 : i < l.length),
      (seqTriples start digits l).get ⟨i, h1⟩ =
        (l.get ⟨i, h2⟩, zeroPad digits (start + i), extOf (l.get ⟨i, h2⟩)) := by
  intro l
  induction l with
  | nil => intro start i h1 h2; exact absurd h2 (by simp)
  | cons f rest ih =>
    intro start i h1 h2
    cases i with
    | zero => simp [seqTriples]
    | succ n =>
      have hstep : start + 1 + n = start + (n + 1) := by omega
      have := ih (start + 1) n (by simpa [seqTriples] using h1) (by simpa using h2)
      simpa [seqTriples, hstep] using this

/-- The path ordering as a relation on strings. -/
def strLe (a b : String) : Prop := lexLe a.data b.data = true

theorem lexLe_total : ∀ (a b : List Char), lexLe a b = true ∨ lexLe b a = true := by
  intro a
  induction a with
  | nil => intro b; exact Or.inl rfl
  | cons x xs ih =>
    intro b
    cases b with
    | nil => exact Or.inr rfl
    | cons y ys =>
      by_cases h1 : x.toNat < y.toNat
      · left; simp [lexLe, h1]
      · by_cases h2 : y.toNat < x.toNat
        · right; simp [lexLe, h2]
        · rcases ih ys with h | h
          · left; simp [lexLe, h1, h2, h]
          · right; simp [lexLe, h1, h2, h]

theorem lexLe_trans : ∀ (a b c : List Char),
    lexLe a b = true → lexLe b c = true → lexLe a c = true := by
  intro a
  induction a with
  | nil => intro b c _ _; rfl
  | cons x xs ih =>
    intro b c hab hbc
    cases b with
    | nil => simp [lexLe] at hab
    | cons y ys =>
      cases c with
      | nil => simp [lexLe] at hbc
      | cons z zs =>
        simp only [lexLe] at hab hbc ⊢
        by_cases h1 : x.toNat < y.toNat
        · by_cases h2 : y.toNat < z.toNat
          · simp [show x.toNat < z.toNat by omega]
          · rw [if_neg h2] at hbc
            by_cases h3 : z.toNat < y.toNat
            · rw [if_pos h3] at hbc; exact absurd hbc (by simp)
            · simp [show x.toNat < z.toNat by omega]
        · rw [if_neg h1] at hab
          by_cases h4 : y.toNat < x.toNat
          · rw [if_pos h4] at hab; exact absurd hab (by simp)
          · rw [if_neg h4] at hab
            by_cases h2 : y.toNat < z.toNat
            · simp [show x.toNat < z.toNat by omega]
            · rw [if_neg h2] at hbc
              by_cases h3 : z.toNat < y.toNat
              · rw [if_pos h3] at hbc; exact absurd hbc (by simp)
              · rw [if_neg h3] at hbc
                rw [if_neg (show ¬ x.toNat < z.toNat by omega),
                  if_neg (show ¬ z.toNat < x.toNat by omega)]
                exact ih ys zs hab hbc

theorem insertStr_perm (x : String) :
    ∀ (l : List String), (insertStr x l).Perm (x :: l) := by
  intro l
  induction l with
  | nil => exact List.Perm.refl _
  | cons y ys ih =>
    simp only [insertStr]
    split
    · exact List.Perm.refl _
    · exact (ih.cons y).trans (List.Perm.swap x y ys)

theorem sortStrs_perm : ∀ (l : List String), (sortStrs l).Perm l := by
  intro l
  induction l with
  | nil => exact List.Perm.refl _
  | cons x xs ih => exact (insertStr_perm x (sortStrs xs)).trans (ih.cons x)

theorem pairwise_insertStr (x : String) : ∀ (l : List String),
    l.Pairwise strLe → (insertStr x l).Pairwise strLe := by
  intro l
  induction l with
  | nil => intro _; exact List.pairwise_cons.mpr ⟨by simp, List.Pairwise.nil⟩
  | cons y ys ih =>
    intro hp
    obtain ⟨hy, hys⟩ := List.pairwise_cons.mp hp
    simp only [insertStr]
    split
    · rename_i hxy
      refine List.pairwise_cons.mpr ⟨?_, hp⟩
      intro z hz
      rcases List.mem_cons.mp hz with rfl | hzys
      · exact hxy
      · exact lexLe_trans x.data y.data z.data hxy (hy z hzys)
    · rename_i hxy
      have hyx : strLe y x := by
        rcases lexLe_total x.data y.data with h | h
        · exact absurd h hxy
        · exact h
      refine List.pairwise_cons.mpr ⟨?_, ih hys⟩
      intro z hz
      rcases List.mem_cons.mp ((insertStr_perm x ys).mem_iff.mp hz) with rfl | hzys
      · exact hyx
      · exact hy z hzys

theorem sortStrs_sorted : ∀ (l : List String), (sortStrs l).Pairwise strLe := by
  intro l
  induction l with
  | nil => exact List.Pairwise.nil
  | cons x xs ih => exact pairwise_insertStr x (sortStrs xs) ih

theorem char_toNat_inj (a b : Char) (h : a.toNat = b.toNat) : a = b := by
  rw [← Char.ofNat_toNat a, ← Char.ofNat_toNat b, h]

theorem charsLt_irrefl : ∀ (a : List Char), charsLt a a = false := by
  intro a
  induction a with
  | nil => rfl
  | cons x xs ih => simp [charsLt, ih]

theorem charsLt_trans : ∀ (a b c : List Char),
    charsLt a b = true → charsLt b c = true → charsLt a c = true := by
  intro a
  induction a with
  | nil =>
    intro b c hab hbc
    cases b with
    | nil => simp [charsLt] at hab
    | cons y ys =>
      cases c with
      | nil => simp [charsLt] at hbc
      | cons z zs => rfl
  | cons x xs ih =>
    intro b c hab hbc
    cases b with
    | nil => simp [charsLt] at hab
    | cons y ys =>
      cases c with
      | nil => simp [charsLt] at hbc
      | cons z zs =>
        simp only [charsLt] at hab hbc ⊢
        by_cases h1 : x.toNat < y.toNat
        · by_cases h2 : y.toNat < z.toNat
          · simp [show x.toNat < z.toNat by omega]
          · rw [if_neg h2] at hbc
            by_cases h3 : z.toNat < y.toNat
            · rw [if_pos h3] at hbc; exact absurd hbc (by simp)
            · simp [show x.toNat < z.toNat by omega]
        · rw [if_neg h1] at hab
          by_cases h4 : y.toNat < x.toNat
          · rw [if_pos h4] at hab; exact absurd hab (by simp)
          · rw [if_neg h4] at hab
            by_cases h2 : y.toNat < z.toNat
            · simp [show x.toNat < z.toNat by omega]
            · rw [if_neg h2] at hbc
              by_cases h3 : z.toNat < y.toNat
              · rw [if_pos h3] at hbc; exact absurd hbc (by simp)
              · rw [if_neg h3] at hbc
                rw [if_neg (show ¬ x.toNat < z.toNat by omega),
                  if_neg (show ¬ z.toNat < x.toNat by omega)]
                exact ih ys zs hab hbc

theorem charsLt_connex : ∀ (a b : List Char),
    charsLt a b = false → charsLt b a = false → a = b := by
  intro a
  induction a with
  | nil =>
    intro b hab _
    cases b with
    | nil => rfl
    | cons y ys => simp [charsLt] at hab
  | cons x xs ih =>
    intro b hab hba
    cases b with
    | nil => simp [charsLt] at hba
    | cons y ys =>
      simp only [charsLt] at hab hba
      by_cases h1 : x.toNat < y.toNat
      · rw [if_pos h1] at hab; exact absurd hab (by simp)
      · by_cases h2 : y.toNat < x.toNat
        · rw [if_pos h2] at hba; exact absurd hba (by simp)
        · rw [if_neg h1, if_neg h2] at hab
          rw [if_neg h2, if_neg h1] at hba
          have hx : x = y := char_toNat_inj x y (by omega)
          rw [hx, ih ys hab hba]

theorem charsLt_asymm (a b : List Char) (h : charsLt a b = true) :
    charsLt b a = false := by
  cases hq : charsLt b a
  · rfl
  · have := charsLt_trans a b a h hq
    rw [charsLt_irrefl] at this
    exact absurd this (by simp)

theorem lexLe_eq_not_charsLt : ∀ (a b : List Char), lexLe a b = !(charsLt b a) := by
  intro a
  induction a with
  | nil =>
    intro b
    cases b with
    | nil => rfl
    | cons y ys => rfl
  | cons x xs ih =>
    intro b
    cases b with
    | nil => rfl
    | cons y ys =>
      simp only [lexLe, charsLt]
      by_cases h1 : x.toNat < y.toNat
      · simp [h1, show ¬ y.toNat < x.toNat by omega]
      · by_cases h2 : y.toNat < x.toNat
        · simp [h1, h2]
        · simp [h1, h2]
          exact ih ys

theorem partsLe_total : ∀ (a b : List (List Char)),
    partsLe a b = true ∨ partsLe b a = true := by
  intro a
  induction a with
  | nil => intro b; exact Or.inl rfl
  | cons x xs ih =>
    intro b
    cases b with
    | nil => exact Or.inr rfl
    | cons y ys =>
      by_cases h1 : charsLt x y = true
      · left; simp [partsLe, h1]
      · by_cases h2 : charsLt y x = true
        · right; simp [partsLe, h2]
        · rcases ih ys with h | h
          · left; simp [partsLe, h1, h2, h]
          · right; simp [partsLe, h1, h2, h]

theorem partsLe_trans : ∀ (a b c : List (List Char)),
    partsLe a b = true → partsLe b c = true → partsLe a c = true := by
  intro a
  induction a with
  | nil => intro b c _ _; rfl
  | cons x xs ih =>
    intro b c hab hbc
    cases b with
    | nil => simp [partsLe] at hab
    | cons y ys =>
      cases c with
      | nil => simp [partsLe] at hbc
      | cons z zs =>
        simp only [partsLe] at hab hbc ⊢
        by_cases h1 : charsLt x y = true
        · by_cases h2 : charsLt y z = true
          · simp [charsLt_trans x y z h1 h2]
          · rw [if_neg h2] at hbc
            by_cases h3 : charsLt z y = true
            · rw [if_pos h3] at hbc; exact absurd hbc (by simp)
            · have h2f : charsLt y z = false := by
                cases hq : charsLt y z
                · rfl
                · exact absurd hq h2
              have h3f : charsLt z y = false := by
                cases hq : charsLt z y
                · rfl
                · exact absurd hq h3
              obtain rfl := charsLt_connex y z h2f h3f
              simp [h1]
        · rw [if_neg h1] at hab
          by_cases h4 : charsLt y x = true
          · rw [if_pos h4] at hab; exact absurd hab (by simp)
          · rw [if_neg h4] at hab
            have h1f : charsLt x y = false := by
              cases hq : charsLt x y
              · rfl
              · exact absurd hq h1
            have h4f : charsLt y x = false := by
              cases hq : charsLt y x
              · rfl
              · exact absurd hq h4
            obtain rfl := charsLt_connex x y h1f h4f
            by_cases h2 : charsLt x z = true
            · simp [h2]
            · rw [if_neg h2] at hbc ⊢
              by_cases h3 : charsLt z x = true
              · rw [if_pos h3] at hbc; exact absurd hbc (by simp)
              · rw [if_neg h3] at hbc ⊢
                exact ih ys zs hab hbc

theorem insertPath_perm (x : String) :
    ∀ (l : List String), (insertPath x l).Perm (x :: l) := by
  intro l
  induction l with
  | nil => exact List.Perm.refl _
  | cons y ys ih =>
    simp only [insertPath]
    split
    · exact List.Perm.refl _
    · exact (ih.cons y).trans (List.Perm.swap x y ys)

theorem sortPaths_perm : ∀ (l : List String), (sortPaths l).Perm l := by
  intro l
  induction l with
  | nil => exact List.Perm.refl _
  | cons x xs ih => exact (insertPath_perm x (sortPaths xs)).trans (ih.cons x)

theorem pairwise_insertPath (x : String) : ∀ (l : List String),
    l.Pairwise pathLe → (insertPath x l).Pairwise pathLe := by
  intro l
  induction l with
  | nil => intro _; exact List.pairwise_cons.mpr ⟨by simp, List.Pairwise.nil⟩
  | cons y ys ih =>
    intro hp
    obtain ⟨hy, hys⟩ := List.pairwise_cons.mp hp
    simp only [insertPath]
    split
    · rename_i hxy
      refine List.pairwise_cons.mpr ⟨?_, hp⟩
      intro z hz
      rcases List.mem_cons.mp hz with rfl | hzys
      · exact hxy
      · exact partsLe_trans _ _ _ hxy (hy z hzys)
    · rename_i hxy
      have hyx : pathLe y x := by
        rcases partsLe_total (splitSlash x.data) (splitSlash y.data) with h | h
        · exact absurd h hxy
        · exact h
      refine List.pairwise_cons.mpr ⟨?_, ih hys⟩
      intro z hz
      rcases List.mem_cons.mp ((insertPath_perm x ys).mem_iff.mp hz) with rfl | hzys
      · exact hyx
      · exact hy z hzys

theorem sortPaths_sorted : ∀ (l : List String), (sortPaths l).Pairwise pathLe := by
  intro l
  induction l with
  | nil => exact List.Pairwise.nil
  | cons x xs ih => exact pairwise_insertPath x (sortPaths xs) ih

theorem splitSlashAux_noSlash : ∀ (l acc : List Char), '/' ∉ l →
    splitSlashAux l acc = [acc.reverse ++ l] := by
  intro l
  induction l with
  | nil => intro acc _; simp [splitSlashAux]
  | cons c rest ih =>
    intro acc hn
    have hc : ¬ c = '/' := fun hq => hn (List.mem_cons.mpr (Or.inl hq.symm))
    simp only [splitSlashAux]
    rw [if_neg hc, ih (c :: acc) (fun hm => hn (List.mem_cons_of_mem c hm))]
    simp

theorem pathLeB_eq_lexLe (a b : String) (ha : '/' ∉ a.data) (hb : '/' ∉ b.data) :
    pathLeB a b = lexLe a.data b.data := by
  unfold pathLeB splitSlash
  rw [splitSlashAux_noSlash a.data [] ha, splitSlashAux_noSlash b.data [] hb]
  simp only [List.reverse_nil, List.nil_append]
  rw [lexLe_eq_not_charsLt]
  by_cases h1 : charsLt a.data b.data = true
  · rw [charsLt_asymm _ _ h1]
    simp [partsLe, h1]
  · by_cases h2 : charsLt b.data a.data = true
    · simp [partsLe, h1, h2]
    · simp [partsLe, h1, h2]

/-- Claim C4: sanitize is a total pure function replacing each occurrence of
the characters backslash, slash, colon, star, question mark, double quote,
less-than, greater-than and pipe with an underscore, preserving a leading
dot; in particular sanitize of a:b*c is a_b_c and sanitize of .hidden?name
is .hidden_name. -/
theorem claim_C4 (name : String) :
    (sanitize name).data = name.data.map replChar ∧
    (∀ c, c ∈ invalidChars → replChar c = '_') ∧
    (∀ c, c ∉ invalidChars → replChar c = c) ∧
    (name.data.head? = some '.' → (sanitize name).data.head? = some '.') ∧
    sanitize "a:b*c" = "a_b_c" ∧
    sanitize ".hidden?name" = ".hidden_name" := by
  refine ⟨sanitize_data name, ?_, ?_, ?_, by decide, by decide⟩
  · intro c hc; simp [replChar, hc]
  · intro c hc; simp [replChar, hc]
  · intro h
    rw [sanitize_data]
    cases hd : name.data with
    | nil => rw [hd] at h; exact absurd h (by simp)
    | cons c cs =>
      rw [hd] at h
      simp at h
      subst h
      simp [replChar, invalidChars]

theorem claim_C4_witness : (sanitize ".hidden?name").data.head? = some '.' :=
  (claim_C4 ".hidden?name").2.2.2.1 (by decide)

/-- Claim C2: the collision-safe renamer first tries the sanitized
prefix-base-suffix-extension candidate, then appends counters _1, _2 and so
on before the extension (re-sanitizing each time) until the candidate either
does not exist as a sibling or equals the old path; the reported target is
the first such candidate and all earlier candidates existed and differed
from the old path. -/
theorem claim_C2 (dry : Bool) (ok : String → String → Bool) (pre suf : String)
    (fs : List String) (old base ext : String) (fs1 : List String) (o : Outcome)
    (h : renameFile dry ok pre suf fs old base ext = some (fs1, o)) :
    candName pre base suf ext 0 = sanitize (pre ++ base ++ suf ++ ext) ∧
    (∀ k, candName pre base suf ext (k + 1) =
      sanitize (pre ++ base ++ suf ++ "_" ++ natReprS (k + 1) ++ ext)) ∧
    o.oldName = old ∧
    (∃ m, o.target = candName pre base suf ext m ∧
      (o.target ∉ fs ∨ o.target = old) ∧
      ∀ j, j < m →
        candName pre base suf ext j ∈ fs ∧ candName pre base suf ext j ≠ old) := by
  obtain ⟨h1, h2⟩ := renameFile_spec dry ok pre suf fs old base ext fs1 o h
  exact ⟨rfl, fun k => rfl, h1, h2⟩

theorem claim_C2_witness :
    (runBatch false okAlways "" "" ["001.txt", "b.txt"]
        [("001.txt", "001", ".txt"), ("b.txt", "001", ".txt")] =
      some (["001_1.txt", "001.txt"],
        [Outcome.mk "001.txt" "001.txt" true false,
         Outcome.mk "b.txt" "001_1.txt" true false])) ∧
    (∃ m, ("001_1.txt" : String) = candName "" "001" "" ".txt" m ∧
      (("001_1.txt" : String) ∉ ["001.txt", "b.txt"] ∨
        ("001_1.txt" : String) = "b.txt") ∧
      ∀ j, j < m → candName "" "001" "" ".txt" j ∈ ["001.txt", "b.txt"] ∧
        candName "" "001" "" ".txt" j ≠ "b.txt") :=
  ⟨rfl,
    (claim_C2 false okAlways "" "" ["001.txt", "b.txt"] "b.txt" "001" ".txt"
      ["001_1.txt", "001.txt"] (Outcome.mk "b.txt" "001_1.txt" true false)
      rfl).2.2.2⟩

/-- Claim C3 counterexample: the claim extends the no-collision invariant to
dry-run planning, but in dry-run mode the filesystem is never updated, so
two distinct sources with the same base are both planned to the very same
target 001.txt. -/
theorem claim_C3_counterexample :
    runBatch true okAlways "" "" ["a.txt", "b.txt"]
        [("a.txt", "001", ".txt"), ("b.txt", "001", ".txt")] =
      some (["a.txt", "b.txt"],
        [Outcome.mk "a.txt" "001.txt" false false,
         Outcome.mk "b.txt" "001.txt" false false]) ∧
    (Outcome.mk "a.txt" "001.txt" false false).target =
      (Outcome.mk "b.txt" "001.txt" false false).target ∧
    ("a.txt" : String) ≠ "b.txt" :=
  ⟨rfl, rfl, by decide⟩

/-- Claim C3 (amended): in apply mode, over a duplicate-free directory and a
batch of distinct source files all present in the directory, the batch
produces one outcome per file and the final names of the files are pairwise
distinct and all present in the final directory state; in dry-run mode the
invariant fails (see the counterexample). -/
theorem claim_C3 (ok : String → String → Bool) (pre suf : String)
    (ts : List (String × String × String)) (fs fs2 : List String)
    (os : List Outcome)
    (h : runBatch false ok pre suf fs ts = some (fs2, os))
    (hnd : fs.Nodup) (hsrc : ∀ t ∈ ts, t.1 ∈ fs)
    (hsnd : (fstNames ts).Nodup) :
    os.length = ts.length ∧ (os.map finalName).Nodup ∧
      (∀ o ∈ os, finalName o ∈ fs2) ∧
      os.map (fun o => o.oldName) = fstNames ts := by
  obtain ⟨_, _, m3, m4, _, m6⟩ :=
    runBatch_master ok pre suf ts fs fs2 os h hnd hsrc hsnd
  have hlen : os.length = ts.length := by
    have := congrArg List.length m6
    simpa [fstNames] using this
  exact ⟨hlen, m3, m4, m6⟩

theorem claim_C3_witness :
    ([Outcome.mk "001.txt" "001.txt" true false,
      Outcome.mk "b.txt" "001_1.txt" true false].map finalName).Nodup ∧
    ∀ o ∈ [Outcome.mk "001.txt" "001.txt" true false,
      Outcome.mk "b.txt" "001_1.txt" true false],
      finalName o ∈ ["001_1.txt", "001.txt"] :=
  have happ := claim_C3 okAlways "" ""
    [("001.txt", "001", ".txt"), ("b.txt", "001", ".txt")]
    ["001.txt", "b.txt"] ["001_1.txt", "001.txt"]
    [Outcome.mk "001.txt" "001.txt" true false,
     Outcome.mk "b.txt" "001_1.txt" true false]
    rfl (by decide) (by decide) (by decide)
  ⟨happ.2.1, happ.2.2.1⟩

/-- Claim C7: a dry run mutates nothing: whatever the strategy's triple list
is, the directory state after the batch equals the state before it, every
(old name, final name) pair is reported, and no rename is performed. Every
strategy (run_simple, run_date, run_size, run_author, run_ai_summary,
run_ai_sort) is an instance of runBatch over its own triple list. -/
theorem claim_C7 (ok : String → String → Bool) (pre suf : String)
    (ts : List (String × String × String)) (fs fs2 : List String)
    (os : List Outcome)
    (h : runBatch true ok pre suf fs ts = some (fs2, os)) :
    fs2 = fs ∧ os.map (fun o => o.oldName) = fstNames ts ∧
      ∀ o ∈ os, o.renamed = false ∧ o.failed = false :=
  runBatch_dry ok pre suf ts fs fs2 os h

theorem claim_C7_witness :
    (runSimple true okAlways "" "" [] 1 3 ["b.txt", "a.txt", "c.txt"] =
      some (["b.txt", "a.txt", "c.txt"],
        [Outcome.mk "a.txt" "001.txt" false false,
         Outcome.mk "b.txt" "002.txt" false false,
         Outcome.mk "c.txt" "003.txt" false false])) ∧
    (["b.txt", "a.txt", "c.txt"] : List String) = ["b.txt", "a.txt", "c.txt"] :=
  ⟨rfl,
    (claim_C7 okAlways "" ""
      (seqTriples 1 3 (getFilesFlat [] ["b.txt", "a.txt", "c.txt"]))
      ["b.txt", "a.txt", "c.txt"] ["b.txt", "a.txt", "c.txt"]
      [Outcome.mk "a.txt" "001.txt" false false,
       Outcome.mk "b.txt" "002.txt" false false,
       Outcome.mk "c.txt" "003.txt" false false] rfl).1⟩

/-- Claim C8: in apply mode every file of the batch gets exactly one
outcome in order (a failing rename never aborts the loop: the per-file
try/except absorbs it), the failure of a file is recorded on its own
outcome exactly when the os.rename oracle fails for it, and a failed file
keeps its original name. -/
theorem claim_C8 (ok : String → String → Bool) (pre suf : String)
    (ts : List (String × String × String)) (fs fs2 : List String)
    (os : List Outcome)
    (h : runBatch false ok pre suf fs ts = some (fs2, os)) :
    os.map (fun o => o.oldName) = fstNames ts ∧
    os.length = ts.length ∧
    (∀ o ∈ os, o.renamed = ok o.oldName o.target ∧
      o.failed = !(ok o.oldName o.target)) ∧
    (∀ o ∈ os, o.failed = true → finalName o = o.oldName) := by
  have hflags := runBatch_flags ok pre suf ts fs fs2 os h
  have hnames : os.map (fun o => o.oldName) = fstNames ts := by
    obtain ⟨hlen, hidx⟩ := runBatch_spec false ok pre suf ts fs fs2 os h
    apply List.ext_get (by simpa [fstNames] using hlen)
    intro i h1 h2
    have hio : i < os.length := by simpa using h1
    have hit : i < ts.length := by simpa [fstNames] using h2
    obtain ⟨ho, _⟩ := hidx i hio hit
    simp only [List.get_eq_getElem, List.getElem_map, fstNames]
    exact ho
  refine ⟨hnames, ?_, hflags, ?_⟩
  · have := congrArg List.length hnames
    simpa [fstNames] using this
  · intro o ho hf
    obtain ⟨hr, _⟩ := hflags o ho
    have : ok o.oldName o.target = false := by
      cases hq : ok o.oldName o.target
      · rfl
      · obtain ⟨_, hfl⟩ := hflags o ho
        rw [hq] at hfl
        simp at hfl
        rw [hfl] at hf
        exact absurd hf (by simp)
    rw [this] at hr
    simp [finalName, hr]

theorem claim_C8_witness :
    (runBatch false (fun old _ => !(old == "b.txt")) "" ""
        ["a.txt", "b.txt", "c.txt"]
        [("a.txt", "x", ".txt"), ("b.txt", "y", ".txt"), ("c.txt", "z", ".txt")] =
      some (["z.txt", "x.txt", "b.txt"],
        [Outcome.mk "a.txt" "x.txt" true false,
         Outcome.mk "b.txt" "y.txt" false true,
         Outcome.mk "c.txt" "z.txt" true false])) ∧
    [Outcome.mk "a.txt" "x.txt" true false,
     Outcome.mk "b.txt" "y.txt" false true,
     Outcome.mk "c.txt" "z.txt" true false].map (fun o => o.oldName) =
      fstNames [("a.txt", "x", ".txt"), ("b.txt", "y", ".txt"), ("c.txt", "z", ".txt")] :=
  ⟨rfl,
    (claim_C8 (fun old _ => !(old == "b.txt")) "" ""
      [("a.txt", "x", ".txt"), ("b.txt", "y", ".txt"), ("c.txt", "z", ".txt")]
      ["a.txt", "b.txt", "c.txt"] ["z.txt", "x.txt", "b.txt"]
      [Outcome.mk "a.txt" "x.txt" true false,
       Outcome.mk "b.txt" "y.txt" false true,
       Outcome.mk "c.txt" "z.txt" true false] rfl).1⟩

/-- Claim C6: run_simple assigns the i-th file of the sorted selection the
base name start + i zero-padded to the configured width, keeping the file's
own extension: the i-th outcome's old name is the i-th selected file and the
reported target is a collision-counter variant of the candidate built from
prefix, the zero-padded counter, suffix, and that file's extension. -/
theorem claim_C6 (dry : Bool) (ok : String → String → Bool) (pre suf : String)
    (exts : List String) (start digits : Nat) (fs fs2 : List String)
    (os : List Outcome)
    (h : runSimple dry ok pre suf exts start digits fs = some (fs2, os)) :
    os.length = (getFilesFlat exts fs).length ∧
    ∀ i (hi : i < os.length) (hj : i < (getFilesFlat exts fs).length),
      (os.get ⟨i, hi⟩).oldName = (getFilesFlat exts fs).get ⟨i, hj⟩ ∧
      ∃ m, (os.get ⟨i, hi⟩).target =
        candName pre (zeroPad digits (start + i)) suf
          (extOf ((getFilesFlat exts fs).get ⟨i, hj⟩)) m := by
  obtain ⟨hlen, hidx⟩ := runBatch_spec dry ok pre suf
    (seqTriples start digits (getFilesFlat exts fs)) fs fs2 os h
  have hslen := seqTriples_length digits (getFilesFlat exts fs) start
  refine ⟨by rw [hlen, hslen], ?_⟩
  intro i hi hj
  have hj2 : i < (seqTriples start digits (getFilesFlat exts fs)).length := by
    rw [hslen]; exact hj
  obtain ⟨ho, m, hm⟩ := hidx i hi hj2
  rw [seqTriples_get digits (getFilesFlat exts fs) start i hj2 hj] at ho hm
  exact ⟨ho, m, hm⟩

theorem claim_C6_witness :
    (runSimple false okAlways "" "" [] 1 3 ["b.txt", "a.txt", "c.txt"] =
      some (["003.txt", "002.txt", "001.txt"],
        [Outcome.mk "a.txt" "001.txt" true false,
         Outcome.mk "b.txt" "002.txt" true false,
         Outcome.mk "c.txt" "003.txt" true false])) ∧
    (getFilesFlat [] ["b.txt", "a.txt", "c.txt"] = ["a.txt", "b.txt", "c.txt"]) ∧
    [Outcome.mk "a.txt" "001.txt" true false,
     Outcome.mk "b.txt" "002.txt" true false,
     Outcome.mk "c.txt" "003.txt" true false].length =
      (getFilesFlat [] ["b.txt", "a.txt", "c.txt"]).length :=
  ⟨rfl, rfl,
    (claim_C6 false okAlways "" "" [] 1 3 ["b.txt", "a.txt", "c.txt"]
      ["003.txt", "002.txt", "001.txt"]
      [Outcome.mk "a.txt" "001.txt" true false,
       Outcome.mk "b.txt" "002.txt" true false,
       Outcome.mk "c.txt" "003.txt" true false] rfl).1⟩

/-- Claim C10: when the AI model is unavailable, sort_files_by_ai returns
its input unchanged, so run_ai_sort performs exactly the computation of
run_simple for every directory state, oracle, prefix, suffix, filter, start
and digits. -/
theorem claim_C10 (resp : Option String) (dry : Bool)
    (ok : String → String → Bool) (pre suf : String) (exts : List String)
    (start digits : Nat) (fs : List String) :
    runAiSort false resp dry ok pre suf exts start digits fs =
      runSimple dry ok pre suf exts start digits fs := rfl

/-- Claim C1 counterexample: a response of 2,2,0 for a 3-file list passes
the only validation the code applies (the length comparison), so the claimed
rejection does not happen: the result duplicates the third file and drops
the second instead of falling back to the original order. -/
theorem claim_C1_counterexample :
    sortFilesByAi true (some "2,2,0") ["a.txt", "b.txt", "c.txt"] =
      ["c.txt", "c.txt", "a.txt"] ∧
    sortFilesByAi true (some "2,2,0") ["a.txt", "b.txt", "c.txt"] ≠
      ["a.txt", "b.txt", "c.txt"] :=
  ⟨rfl, by decide⟩

/-- Claim C1 (amended): the AI ordering is used exactly when the response
parses as a comma-separated integer list of the same length as the input
whose every entry indexes the list under Python semantics (negative indices
wrap); duplicate indices are not detected. Parse failures, a wrong length,
an out-of-range index and a failed or unavailable call all fall back to the
untouched selection order. -/
theorem claim_C1 (files : List String) :
    (∀ resp, sortFilesByAi false resp files = files) ∧
    sortFilesByAi true none files = files ∧
    (∀ r, parseIndices r = none → sortFilesByAi true (some r) files = files) ∧
    (∀ r idxs, parseIndices r = some idxs → idxs.length ≠ files.length →
      sortFilesByAi true (some r) files = files) ∧
    (∀ r idxs, parseIndices r = some idxs → idxs.length = files.length →
      allSome (idxs.map (pyGet files)) = none →
      sortFilesByAi true (some r) files = files) ∧
    (∀ r idxs l, parseIndices r = some idxs → idxs.length = files.length →
      allSome (idxs.map (pyGet files)) = some l →
      sortFilesByAi true (some r) files = l) := by
  refine ⟨fun resp => rfl, rfl, ?_, ?_, ?_, ?_⟩
  · intro r hp
    simp [sortFilesByAi, hp]
  · intro r idxs hp hlen
    simp [sortFilesByAi, hp, hlen]
  · intro r idxs hp hlen hall
    simp [sortFilesByAi, hp, hlen, hall]
  · intro r idxs l hp hlen hall
    simp [sortFilesByAi, hp, hlen, hall]

theorem claim_C1_witness :
    sortFilesByAi true (some "2,2,0") ["a.txt", "b.txt", "c.txt"] =
      ["c.txt", "c.txt", "a.txt"] :=
  (claim_C1 ["a.txt", "b.txt", "c.txt"]).2.2.2.2.2 "2,2,0" [2, 2, 0]
    ["c.txt", "c.txt", "a.txt"] rfl rfl rfl

/-- Claim C9 counterexample: the code renders the author placeholder with
four strings, not three: an absent author field yields UnknownAuthor for a
docx but UnknownArtist for an image whose EXIF dictionary lacks tag 315, and
an image with no EXIF data at all (field absent, format supported) falls
through to AuthorNotSupported, the very placeholder of the unsupported
formats, so the three outcomes are not distinguished by the string. -/
theorem claim_C9_counterexample :
    getFileAuthor (MetaOracle.mk (fun _ => Except.ok none)
      (fun _ => Except.ok (some none))) "a.docx" = "UnknownAuthor" ∧
    getFileAuthor (MetaOracle.mk (fun _ => Except.ok none)
      (fun _ => Except.ok (some none))) "b.jpg" = "UnknownArtist" ∧
    ("UnknownAuthor" : String) ≠ "UnknownArtist" ∧
    getFileAuthor (MetaOracle.mk (fun _ => Except.ok none)
      (fun _ => Except.ok none)) "c.jpg" = "AuthorNotSupported" ∧
    getFileAuthor (MetaOracle.mk (fun _ => Except.ok none)
      (fun _ => Except.ok none)) "d.png" = "AuthorNotSupported" :=
  ⟨rfl, rfl, by decide, rfl, rfl⟩

theorem list_get_map {α β : Type} (g : α → β) :
    ∀ (l : List α) (i : Nat) (h1 : i < (l.map g).length) (h2 : i < l.length),
      (l.map g).get ⟨i, h1⟩ = g (l.get ⟨i, h2⟩) := by
  intro l
  induction l with
  | nil => intro i h1 h2; exact absurd h2 (by simp)
  | cons x xs ih =>
    intro i h1 h2
    cases i with
    | zero => rfl
    | succ n => exact ih n (by simpa using h1) (by simpa using h2)

/-- Claim C9 (amended): the author strategy never raises and produces the
base name author underscore stem, where author is the extracted value when
present and truthy, and otherwise one of four placeholder strings:
AuthorNotAvailable when extraction raises, UnknownAuthor for a docx with an
absent or empty field, UnknownArtist for an image whose EXIF dictionary
lacks the artist tag, and AuthorNotSupported both for unsupported formats
and for a supported image with no EXIF data at all. -/
theorem claim_C9 (m : MetaOracle) (p : String) :
    ((lowerStr (extOf p) = ".docx" →
      (m.docxAuthor p = Except.error () → getFileAuthor m p = "AuthorNotAvailable") ∧
      (m.docxAuthor p = Except.ok none → getFileAuthor m p = "UnknownAuthor") ∧
      (∀ s, m.docxAuthor p = Except.ok (some s) → s ≠ "" → getFileAuthor m p = s) ∧
      (m.docxAuthor p = Except.ok (some "") → getFileAuthor m p = "UnknownAuthor")) ∧
    ((lowerStr (extOf p) = ".jpg" ∨ lowerStr (extOf p) = ".jpeg" ∨
        lowerStr (extOf p) = ".tiff") →
      (m.imageExif p = Except.error () → getFileAuthor m p = "AuthorNotAvailable") ∧
      (m.imageExif p = Except.ok none → getFileAuthor m p = "AuthorNotSupported") ∧
      (m.imageExif p = Except.ok (some none) → getFileAuthor m p = "UnknownArtist") ∧
      (∀ v, m.imageExif p = Except.ok (some (some v)) → getFileAuthor m p = v)) ∧
    (¬ (lowerStr (extOf p) = ".docx" ∨ lowerStr (extOf p) = ".jpg" ∨
        lowerStr (extOf p) = ".jpeg" ∨ lowerStr (extOf p) = ".tiff") →
      getFileAuthor m p = "AuthorNotSupported")) ∧
    (∀ (dry : Bool) (ok : String → String → Bool) (pre suf : String)
      (exts : List String) (fs fs2 : List String) (os : List Outcome),
      runAuthor m dry ok pre suf exts fs = some (fs2, os) →
      os.length = (getFilesFlat exts fs).length ∧
      ∀ i (hi : i < os.length) (hj : i < (getFilesFlat exts fs).length),
        (os.get ⟨i, hi⟩).oldName = (getFilesFlat exts fs).get ⟨i, hj⟩ ∧
        ∃ k, (os.get ⟨i, hi⟩).target =
          candName pre
            (getFileAuthor m ((getFilesFlat exts fs).get ⟨i, hj⟩) ++ "_" ++
              stemOf ((getFilesFlat exts fs).get ⟨i, hj⟩))
            suf (extOf ((getFilesFlat exts fs).get ⟨i, hj⟩)) k) := by
  constructor
  · refine ⟨?_, ?_, ?_⟩
    · intro hd
      refine ⟨?_, ?_, ?_, ?_⟩
      · intro he; simp [getFileAuthor, hd, he]
      · intro he; simp [getFileAuthor, hd, he]
      · intro s he hs; simp [getFileAuthor, hd, he, hs]
      · intro he; simp [getFileAuthor, hd, he]
    · intro hi
      have hnd : ¬ lowerStr (extOf p) = ".docx" := by
        rcases hi with h | h | h <;> rw [h] <;> decide
      refine ⟨?_, ?_, ?_, ?_⟩
      · intro he; simp [getFileAuthor, hnd, hi, he]
      · intro he; simp [getFileAuthor, hnd, hi, he]
      · intro he; simp [getFileAuthor, hnd, hi, he]
      · intro v he; simp [getFileAuthor, hnd, hi, he]
    · intro hn
      push_neg at hn
      obtain ⟨n1, n2, n3, n4⟩ := hn
      simp [getFileAuthor, n1, n2, n3, n4]
  · intro dry ok pre suf exts fs fs2 os h
    obtain ⟨hlen, hidx⟩ := runBatch_spec dry ok pre suf
      ((getFilesFlat exts fs).map
        (fun f => (f, getFileAuthor m f ++ "_" ++ stemOf f, extOf f)))
      fs fs2 os h
    refine ⟨by simpa using hlen, ?_⟩
    intro i hi hj
    have hj2 : i < ((getFilesFlat exts fs).map
        (fun f => (f, getFileAuthor m f ++ "_" ++ stemOf f, extOf f))).length := by
      simpa using hj
    obtain ⟨ho, k, hk⟩ := hidx i hi hj2
    rw [list_get_map (fun f => (f, getFileAuthor m f ++ "_" ++ stemOf f, extOf f))
      (getFilesFlat exts fs) i hj2 hj] at ho hk
    exact ⟨ho, k, hk⟩

theorem claim_C9_witness :
    getFileAuthor (MetaOracle.mk (fun _ => Except.ok (some "Alice"))
      (fun _ => Except.ok none)) "r.docx" = "Alice" ∧
    runAuthor (MetaOracle.mk (fun _ => Except.ok (some "Alice"))
        (fun _ => Except.ok none)) false okAlways "" "" [] ["r.docx"] =
      some (["Alice_r.docx"], [Outcome.mk "r.docx" "Alice_r.docx" true false]) :=
  ⟨((claim_C9 (MetaOracle.mk (fun _ => Except.ok (some "Alice"))
      (fun _ => Except.ok none)) "r.docx").1.1 rfl).2.2.1 "Alice" rfl (by decide),
   rfl⟩

/-- Claim C5 counterexample: sorted(files) on Path objects orders by the
parts tuple, not the full path string: in recursive mode the selector
returns root/a/b.txt before root/a.txt, though as strings root/a.txt sorts
first (the dot 46 is below the slash 47), so the returned adjacent pair
violates the claimed full-path-string ascending order. -/
theorem claim_C5_counterexample :
    getFilesTree "root" [FSTree.dir "a" [FSTree.file "b.txt"], FSTree.file "a.txt"]
        true [] = ["root/a/b.txt", "root/a.txt"] ∧
    lexLe "root/a/b.txt".data "root/a.txt".data = false ∧
    ("root/a/b.txt" : String) ≠ "root/a.txt" :=
  ⟨rfl, rfl, by decide⟩

/-- Claim C5 (amended): the file selector returns exactly the regular-file
entries of the walked iterator (immediate children without the recursive
flag, the whole tree with it) that pass the lowercased-extension filter when
one is configured, as a list sorted ascending by pathlib's path order, i.e.
lexicographically by the tuple of path components rather than by the full
path string (the two orders coincide below a single parent, and differ in
recursive mode, see the counterexample); an empty match yields the empty
list. -/
theorem claim_C5 (base : String) (cs : List FSTree) (recursive : Bool)
    (exts : List String) :
    (getFilesTree base cs recursive exts).Perm
      (((selectorEntries base cs recursive).filter (keepEntry exts)).map
        (fun e => e.1)) ∧
    (getFilesTree base cs recursive exts).Pairwise pathLe ∧
    (∀ p, p ∈ getFilesTree base cs recursive exts ↔
      ((p, true) ∈ selectorEntries base cs recursive ∧
        (exts.isEmpty || exts.contains (lowerStr (extOf p))) = true)) ∧
    ((selectorEntries base cs recursive).filter (keepEntry exts) = [] →
      getFilesTree base cs recursive exts = []) := by
  refine ⟨sortPaths_perm _, sortPaths_sorted _, ?_, ?_⟩
  · intro p
    unfold getFilesTree
    rw [(sortPaths_perm _).mem_iff]
    constructor
    · intro hp
      obtain ⟨e, he, rfl⟩ := List.mem_map.mp hp
      obtain ⟨hent, hkeep⟩ := List.mem_filter.mp he
      obtain ⟨hfile, hflt⟩ := Bool.and_eq_true .. ▸ hkeep
      have : e = (e.1, true) := by
        obtain ⟨a, b⟩ := e
        simp at hfile
        rw [hfile]
      exact ⟨this ▸ hent, hflt⟩
    · rintro ⟨hent, hflt⟩
      apply List.mem_map.mpr
      refine ⟨(p, true), List.mem_filter.mpr ⟨hent, ?_⟩, rfl⟩
      have hprop : exts = [] ∨ lowerStr (extOf p) ∈ exts := by simpa using hflt
      simp [keepEntry, hprop]
  · intro hempty
    unfold getFilesTree
    rw [hempty]
    rfl

theorem claim_C5_witness :
    getFilesTree "r" [FSTree.dir "d" [FSTree.file "x.md"]] false [] = [] :=
  (claim_C5 "r" [FSTree.dir "d" [FSTree.file "x.md"]] false []).2.2.2 rfl

end Renban
